import Mathlib

/-
Verification of the latent class analysis (LCA / stepmix) numerical core.

Shallow embedding of the emission models and utility functions:
  - src/lca/emission/categorical.py        (Bernoulli, Multinoulli)
  - src/stepmix/emission/categorical.py    (Bernoulli, BernoulliNan, Multinoulli)
  - src/stepmix/utils.py                   (check_in, check_emission_param,
                                            identify_coef, modal)

Matrices are total functions Fin n -> Fin k -> Q.  Missing values (numpy NaN
entries) are modelled with Option Q: none stands for NaN, some x for the
observed value x.  numpy elementwise operations become pointwise definitions,
matrix products become sums over Finset.univ, and np.log is kept abstract as a
function parameter f : Q -> Q, since none of the verified properties depend on
the concrete logarithm.
-/

namespace LCA

/-- Clip bound 1e-15 used throughout the code to keep probabilities away from 0 and 1. -/
def eps : ℚ := 1 / 10 ^ 15

/-- Translation of np.clip applied entrywise: values below lo are raised to lo,
values above hi are lowered to hi. -/
def npClip (x lo hi : ℚ) : ℚ := min (max x lo) hi

/-- Column sums of a matrix, as in resp.sum with axis 0. -/
def colSum {n c : ℕ} (R : Fin n → Fin c → ℚ) (j : Fin c) : ℚ := ∑ s, R s j

/-- Translation of Bernoulli.m_step from src/lca/emission/categorical.py and
src/stepmix/emission/categorical.py:
pis = X.T @ resp; pis /= resp.sum(axis=0, keepdims=True); pis = np.clip(pis, 1e-15, 1 - 1e-15). -/
def Bernoulli_m_step {n k c : ℕ} (X : Fin n → Fin k → ℚ) (R : Fin n → Fin c → ℚ) :
    Fin k → Fin c → ℚ :=
  let pis0 : Fin k → Fin c → ℚ := fun i j => ∑ s, X s i * R s j
  let pis1 : Fin k → Fin c → ℚ := fun i j => pis0 i j / colSum R j
  fun i j => npClip (pis1 i j) eps (1 - eps)

/-- Translation of Bernoulli.log_likelihood:
pis = np.clip(parameters, 1e-15, 1 - 1e-15); return X @ np.log(pis) + (1 - X) @ np.log(1 - pis).
The logarithm is abstracted as f. -/
def Bernoulli_log_likelihood {n k c : ℕ} (f : ℚ → ℚ) (pis : Fin k → Fin c → ℚ)
    (X : Fin n → Fin k → ℚ) : Fin n → Fin c → ℚ :=
  let pisc : Fin k → Fin c → ℚ := fun i j => npClip (pis i j) eps (1 - eps)
  fun s j => (∑ i, X s i * f (pisc i j)) + (∑ i, (1 - X s i) * f (1 - pisc i j))

/-- Translation of Multinoulli.m_step, identical in the source to Bernoulli.m_step. -/
def Multinoulli_m_step {n k c : ℕ} (X : Fin n → Fin k → ℚ) (R : Fin n → Fin c → ℚ) :
    Fin k → Fin c → ℚ :=
  let pis0 : Fin k → Fin c → ℚ := fun i j => ∑ s, X s i * R s j
  let pis1 : Fin k → Fin c → ℚ := fun i j => pis0 i j / colSum R j
  fun i j => npClip (pis1 i j) eps (1 - eps)

/-- Observed mask of a matrix with possibly missing entries: is_observed = ~np.isnan(X). -/
def isObserved {n k : ℕ} (X : Fin n → Fin k → Option ℚ) (s : Fin n) (i : Fin k) : Prop :=
  (X s i).isSome

instance {n k : ℕ} (X : Fin n → Fin k → Option ℚ) (s : Fin n) (i : Fin k) :
    Decidable (isObserved X s i) := by unfold isObserved; infer_instance

/-- Replacement of NaN entries by 0, as in np.nan_to_num. -/
def nanToNum {n k : ℕ} (X : Fin n → Fin k → Option ℚ) (s : Fin n) (i : Fin k) : ℚ :=
  (X s i).getD 0

/-- Translation of BernoulliNan.m_step from src/stepmix/emission/categorical.py:
is_observed = ~np.isnan(X); X = np.nan_to_num(X); pis = X.T @ resp;
then for each feature i, pis[i] /= resp[is_observed[:, i]].sum(axis=0).
Note that no clip is applied in this m_step. -/
def BernoulliNan_m_step {n k c : ℕ} (X : Fin n → Fin k → Option ℚ)
    (R : Fin n → Fin c → ℚ) : Fin k → Fin c → ℚ :=
  let pis0 : Fin k → Fin c → ℚ := fun i j => ∑ s, nanToNum X s i * R s j
  fun i j => pis0 i j / ∑ s ∈ Finset.univ.filter (fun s => isObserved X s i), R s j

/-- Translation of BernoulliNan.log_likelihood:
is_observed = ~np.isnan(X); X = np.nan_to_num(X);
pis = np.clip(parameters, 1e-15, 1 - 1e-15);
return X @ np.log(pis) + ((1 - X) * is_observed) @ np.log(1 - pis). -/
def BernoulliNan_log_likelihood {n k c : ℕ} (f : ℚ → ℚ) (pis : Fin k → Fin c → ℚ)
    (X : Fin n → Fin k → Option ℚ) : Fin n → Fin c → ℚ :=
  let pisc : Fin k → Fin c → ℚ := fun i j => npClip (pis i j) eps (1 - eps)
  fun s j =>
    (∑ i, nanToNum X s i * f (pisc i j)) +
      (∑ i, (1 - nanToNum X s i) * (if isObserved X s i then 1 else 0) * f (1 - pisc i j))

/-- Multinoulli emission model state from src/stepmix/emission/categorical.py:
a stored parameter table pis with kl rows (k features times l outcomes) and
c columns, together with the configured number of outcomes. -/
structure Multinoulli (kl c : ℕ) where
  pis : Fin kl → Fin c → ℚ
  n_outcomes : ℕ

/-- Translation of the Multinoulli.n_parameters property:
it returns pis.shape[0] * pis.shape[1]. -/
def Multinoulli_n_parameters {kl c : ℕ} (_m : Multinoulli kl c) : ℕ := kl * c

/-- Translation of np.argmax on a nonempty row: index of the maximal value,
with ties broken by the first (lowest) index, matching the documented numpy
behaviour of returning the first occurrence of the maximum.  The recursion
scans the row left to right and replaces the current best index only on a
strictly larger value. -/
def npArgmax : {m : ℕ} → (Fin (m + 1) → ℚ) → Fin (m + 1)
  | 0, _ => 0
  | m + 1, f =>
    let r := npArgmax (fun i : Fin (m + 1) => f i.castSucc)
    if f r.castSucc < f (Fin.last (m + 1)) then Fin.last (m + 1) else r.castSucc

/-- Translation of modal from src/stepmix/utils.py:
preds = resp.argmax(axis=1); modal_resp = np.zeros(resp.shape);
modal_resp[np.arange(resp.shape[0]), preds] = 1;
then optionally clipped to the (1e-15, 1 - 1e-15) range. -/
def modal {n c : ℕ} (resp : Fin n → Fin (c + 1) → ℚ) (clip : Bool) :
    Fin n → Fin (c + 1) → ℚ :=
  let preds : Fin n → Fin (c + 1) := fun s => npArgmax (resp s)
  let modal_resp : Fin n → Fin (c + 1) → ℚ := fun s j => if j = preds s then 1 else 0
  if clip then fun s j => npClip (modal_resp s j) eps (1 - eps) else modal_resp

/-- Translation of np.argsort on a row: the list of indices sorted by value.
A stable structural sort is used; on rows with pairwise distinct values, which
is the only situation the verified claims exercise, every correct sort agrees
with numpy argsort. -/
def npArgsortIdx {m : ℕ} (v : Fin m → ℚ) : List (Fin m) :=
  List.insertionSort (fun i j => v i ≤ v j) (List.finRange m)

/-- Reference class chosen by identify_coef in src/stepmix/utils.py:
closest_id = np.argsort(coef[0])[1], the index holding the second smallest
value of the first row.  The matrix has at least one row and two columns. -/
def closestId {r m : ℕ} (coef : Fin (r + 1) → Fin (m + 2) → ℚ) : Fin (m + 2) :=
  (npArgsortIdx (coef 0)).getD 1 0

/-- Translation of identify_coef from src/stepmix/utils.py:
coef -= coef[:, closest_id].reshape((-1, 1)); return coef.
The value computed is the matrix with the chosen reference column subtracted
from every column. -/
def identify_coef {r m : ℕ} (coef : Fin (r + 1) → Fin (m + 2) → ℚ) :
    Fin (r + 1) → Fin (m + 2) → ℚ :=
  fun i j => coef i j - coef i (closestId coef)

/-- Heap of numpy arrays of a fixed shape, addressed by natural numbers, used
to make the in-place mutation performed by identify_coef observable. -/
def Heap (r m : ℕ) := ℕ → Fin (r + 1) → Fin (m + 2) → ℚ

/-- Overwriting one heap cell. -/
def heapWrite {r m : ℕ} (h : Heap r m) (a : ℕ) (v : Fin (r + 1) → Fin (m + 2) → ℚ) :
    Heap r m :=
  fun b => if b = a then v else h b

/-- State-passing semantics of calling identify_coef on the array stored at
address a: the subtraction coef -= ... is an in-place numpy update of that
array, and the function returns the very same array object. -/
def identify_coef_ref {r m : ℕ} (a : ℕ) (h : Heap r m) : ℕ × Heap r m :=
  (a, heapWrite h a (identify_coef (h a)))

/-- Python values as far as check_emission_param inspects them: strings,
integers, dicts with string keys, and anything else. -/
inductive PyVal where
  | str : String → PyVal
  | int : Int → PyVal
  | dict : List (String × PyVal) → PyVal
  | other : PyVal

/-- Key membership test of a Python dict. -/
def dictHasKey : List (String × PyVal) → String → Bool
  | [], _ => false
  | (k, _) :: rest, key => k == key || dictHasKey rest key

/-- Lookup in a Python dict, first matching key. -/
def dictGet : List (String × PyVal) → String → PyVal
  | [], _ => .other
  | (k, v) :: rest, key => if k == key then v else dictGet rest key

/-- Python membership test of a value in a list of strings. -/
def pyInStrList : PyVal → List String → Bool
  | .str s, choices => choices.contains s
  | _, _ => false

/-- Translation of check_in from src/stepmix/utils.py, specialised to a list
of string choices: raises ValueError when the value is not among the choices. -/
def check_in (choices : List String) (v : PyVal) : Except String Unit :=
  if pyInStrList v choices then .ok ()
  else .error "value not recognized. Choose from choices"

/-- Loop body of check_emission_param over the items of a dict descriptor. -/
def checkNestedItems (keys : List String) : List (String × PyVal) → Except String Unit
  | [] => .ok ()
  | (_, item) :: rest =>
    match item with
    | .dict ientries =>
      if dictHasKey ientries "model" && dictHasKey ientries "n_features" then
        do
          check_in keys (dictGet ientries "model")
          checkNestedItems keys rest
      else
        .error "Nested dict descriptors should include at least a model key and an n_features key."
    | _ => .error "Items in a nested model description should be dicts."

/-- Translation of check_emission_param from src/stepmix/utils.py:
a string descriptor is checked against the valid emission names via check_in;
a dict descriptor has each item checked to be a dict holding a model key and
an n_features key, with the model value checked via check_in; anything else
raises ValueError. -/
def check_emission_param (descriptor : PyVal) (keys : List String) : Except String Unit :=
  match descriptor with
  | .str s => check_in keys (.str s)
  | .dict entries => checkNestedItems keys entries
  | _ => .error "Emission descriptor should be either a string or a dict."

/-- Malformation predicate following the claim wording: the descriptor is
neither a string nor a dict, or a string not among the valid names, or a dict
holding an item that is not a dict or whose dict lacks a model key or an
n_features key.  Written from the claim, to be compared with the code. -/
def claimMalformed (descriptor : PyVal) (keys : List String) : Bool :=
  match descriptor with
  | .str s => !(keys.contains s)
  | .dict entries =>
    entries.any fun kv =>
      match kv.2 with
      | .dict ie => !(dictHasKey ie "model" && dictHasKey ie "n_features")
      | _ => true
  | _ => true

/-- Amended malformation predicate: as claimMalformed, and additionally a dict
item whose model value is not among the valid emission names is malformed. -/
def amendedMalformed (descriptor : PyVal) (keys : List String) : Bool :=
  match descriptor with
  | .str s => !(keys.contains s)
  | .dict entries =>
    entries.any fun kv =>
      match kv.2 with
      | .dict ie =>
        !(dictHasKey ie "model" && dictHasKey ie "n_features") ||
          !(pyInStrList (dictGet ie "model") keys)
      | _ => true
  | _ => true

/-- Erroring test for Except results, the raising of a Python ValueError. -/
def raises {α : Type} : Except String α → Bool
  | .error _ => true
  | .ok _ => false

/-- Concrete responsibility row used to instantiate hypotheses: values 1, 2, 2,
whose first maximal entry sits at index 1. -/
def respW : Fin 1 → Fin 3 → ℚ := fun _ j => if j = 0 then 1 else 2

lemma le_npArgmax {m : ℕ} (f : Fin (m + 1) → ℚ) (j : Fin (m + 1)) :
    f j ≤ f (npArgmax f) := by
  induction m with
  | zero =>
    have hj : j = 0 := Fin.fin_one_eq_zero j
    subst hj
    exact le_of_eq rfl
  | succ m ih =>
    simp only [npArgmax]
    split
    · rename_i hlt
      refine Fin.lastCases ?_ ?_ j
      · exact le_refl _
      · intro i
        exact le_of_lt (lt_of_le_of_lt (ih (fun i => f i.castSucc) i) hlt)
    · rename_i hlt
      refine Fin.lastCases ?_ ?_ j
      · exact le_of_not_lt hlt
      · intro i
        exact ih (fun i => f i.castSucc) i

lemma npArgmax_first {m : ℕ} (f : Fin (m + 1) → ℚ) (j : Fin (m + 1))
    (hj : j < npArgmax f) : f j < f (npArgmax f) := by
  induction m with
  | zero =>
    have h1 : j = 0 := Fin.fin_one_eq_zero j
    have h2 : npArgmax f = 0 := Fin.fin_one_eq_zero _
    rw [h1, h2] at hj
    exact absurd hj (lt_irrefl _)
  | succ m ih =>
    simp only [npArgmax] at hj ⊢
    split
    · rename_i hlt
      have hj' : j ≠ Fin.last (m + 1) := by
        intro h
        subst h
        simp only [npArgmax, hlt, if_pos] at hj
        exact absurd hj (lt_irrefl _)
      obtain ⟨i, rfl⟩ : ∃ i : Fin (m + 1), j = i.castSucc :=
        ⟨j.castLT (Fin.val_lt_last hj'), rfl⟩
      exact lt_of_le_of_lt (le_npArgmax (fun i => f i.castSucc) i) hlt
    · rename_i hlt
      set r := npArgmax (fun i : Fin (m + 1) => f i.castSucc) with hr
      simp only [npArgmax, if_neg hlt, ← hr] at hj
      have hj' : j ≠ Fin.last (m + 1) := by
        intro h
        subst h
        exact absurd (lt_trans hj (Fin.castSucc_lt_last r)) (lt_irrefl _)
      obtain ⟨i, rfl⟩ : ∃ i : Fin (m + 1), j = i.castSucc :=
        ⟨j.castLT (Fin.val_lt_last hj'), rfl⟩
      exact ih (fun i => f i.castSucc) i (Fin.castSucc_lt_castSucc_iff.mp hj)

lemma npArgmax_oneHot {m : ℕ} (p : Fin (m + 1)) :
    npArgmax (fun j => if j = p then (1 : ℚ) else 0) = p := by
  set g : Fin (m + 1) → ℚ := fun j => if j = p then (1 : ℚ) else 0 with hg
  by_contra hne
  have h1 : g p ≤ g (npArgmax g) := le_npArgmax g p
  have h2 : g p = 1 := by simp [hg]
  have h3 : g (npArgmax g) = 0 := by simp [hg, hne]
  rw [h2, h3] at h1
  norm_num at h1

/-- C6: with clip disabled, modal returns a matrix of the same shape in which
every row is strictly one-hot: the single 1 sits at the argmax of that row,
ties are broken by the lowest index, and every other entry is 0. -/
theorem modal_one_hot {n c : ℕ} (resp : Fin n → Fin (c + 1) → ℚ) (s : Fin n) :
    modal resp false s (npArgmax (resp s)) = 1 ∧
    (∀ j, j ≠ npArgmax (resp s) → modal resp false s j = 0) ∧
    (∀ j, resp s j ≤ resp s (npArgmax (resp s))) ∧
    (∀ j, j < npArgmax (resp s) → resp s j < resp s (npArgmax (resp s))) := by
  refine ⟨?_, ?_, fun j => le_npArgmax (resp s) j, fun j hj => npArgmax_first (resp s) j hj⟩
  · simp [modal]
  · intro j hj
    simp [modal, hj]

/-- Closed instantiation of modal_one_hot on the concrete row 1, 2, 2, whose
first maximum sits at index 1. -/
theorem modal_one_hot_witness :
    modal respW false 0 (npArgmax (respW 0)) = 1 ∧
    modal respW false 0 0 = 0 ∧
    respW 0 0 < respW 0 (npArgmax (respW 0)) := by
  have h := modal_one_hot respW 0
  exact ⟨h.1, h.2.1 0 (by decide), h.2.2.2 0 (by decide)⟩

/-- C10: modal with clip disabled is idempotent, and every row of its output
sums exactly to 1. -/
theorem modal_idempotent {n c : ℕ} (resp : Fin n → Fin (c + 1) → ℚ) :
    modal (modal resp false) false = modal resp false ∧
    ∀ s, ∑ j, modal resp false s j = 1 := by
  constructor
  · funext s j
    have hm : ∀ (resp' : Fin n → Fin (c + 1) → ℚ) (s' : Fin n) (j' : Fin (c + 1)),
        modal resp' false s' j' = if j' = npArgmax (resp' s') then (1 : ℚ) else 0 :=
      fun _ _ _ => rfl
    have hms : modal resp false s = fun j' => if j' = npArgmax (resp s) then (1 : ℚ) else 0 :=
      rfl
    rw [hm, hm, hms, npArgmax_oneHot]
  · intro s
    simp [modal, Finset.sum_ite_eq']

lemma BernoulliNan_m_step_eq {n k c : ℕ} (X : Fin n → Fin k → Option ℚ)
    (R : Fin n → Fin c → ℚ) (i : Fin k) (j : Fin c) :
    BernoulliNan_m_step X R i j =
      (∑ s ∈ Finset.univ.filter (fun s => isObserved X s i), (X s i).getD 0 * R s j) /
        ∑ s ∈ Finset.univ.filter (fun s => isObserved X s i), R s j := by
  unfold BernoulliNan_m_step
  simp only
  congr 1
  rw [Finset.sum_filter]
  refine Finset.sum_congr rfl fun s _ => ?_
  by_cases h : isObserved X s i
  · simp [h, nanToNum]
  · have hx : X s i = none := Option.not_isSome_iff_eq_none.mp h
    simp [h, nanToNum, hx]

/-- C3: the BernoulliNan m_step normalizes each feature only by the
responsibility mass of the individuals observed on that feature, with the
numerator likewise accumulated only over observed individuals; and the
BernoulliNan log_likelihood masks missing entries out of both the X term and
the (1 - X) term, so a missing entry contributes exactly zero and the
per-sample per-class log density is the sum over observed features only. -/
theorem BernoulliNan_missing_masked {n k c : ℕ} (f : ℚ → ℚ)
    (X : Fin n → Fin k → Option ℚ) (R : Fin n → Fin c → ℚ)
    (pis : Fin k → Fin c → ℚ) :
    (∀ (i : Fin k) (j : Fin c),
      BernoulliNan_m_step X R i j =
        (∑ s ∈ Finset.univ.filter (fun s => isObserved X s i), (X s i).getD 0 * R s j) /
          ∑ s ∈ Finset.univ.filter (fun s => isObserved X s i), R s j) ∧
    (∀ (s : Fin n) (j : Fin c),
      BernoulliNan_log_likelihood f pis X s j =
        ∑ i ∈ Finset.univ.filter (fun i => isObserved X s i),
          ((X s i).getD 0 * f (npClip (pis i j) eps (1 - eps)) +
            (1 - (X s i).getD 0) * f (1 - npClip (pis i j) eps (1 - eps)))) := by
  constructor
  · exact fun i j => BernoulliNan_m_step_eq X R i j
  · intro s j
    unfold BernoulliNan_log_likelihood
    simp only
    rw [Finset.sum_filter, ← Finset.sum_add_distrib]
    refine Finset.sum_congr rfl fun i _ => ?_
    by_cases h : isObserved X s i
    · simp [h, nanToNum]
    · have hx : X s i = none := Option.not_isSome_iff_eq_none.mp h
      simp [h, nanToNum, hx]

/-- C8: on complete data, data with every entry observed, the BernoulliNan
log_likelihood coincides exactly with the plain Bernoulli log_likelihood. -/
theorem BernoulliNan_complete_agrees {n k c : ℕ} (f : ℚ → ℚ)
    (pis : Fin k → Fin c → ℚ) (X : Fin n → Fin k → ℚ) :
    BernoulliNan_log_likelihood f pis (fun s i => some (X s i)) =
      Bernoulli_log_likelihood f pis X := by
  funext s j
  simp [BernoulliNan_log_likelihood, Bernoulli_log_likelihood, isObserved, nanToNum]

/-- C4: the Bernoulli m_step stores the responsibility-weighted feature
frequencies, the transposed data matrix times the responsibilities divided
columnwise by the responsibility column sums, clipped to the closed range from
1e-15 to 1 - 1e-15; and the Bernoulli log_likelihood returns the matrix
X log(pis) + (1 - X) log(1 - pis) in matrix-product form, summed over
features, with the stored table clipped before the logarithms are taken. -/
theorem Bernoulli_matrix_formulas {n k c : ℕ} (f : ℚ → ℚ)
    (X : Fin n → Fin k → ℚ) (R : Fin n → Fin c → ℚ) (pis : Fin k → Fin c → ℚ)
    (_hX : ∀ s i, 0 ≤ X s i ∧ X s i ≤ 1) (_hR : ∀ j, 0 < ∑ s, R s j) :
    (∀ (i : Fin k) (j : Fin c),
      Bernoulli_m_step X R i j =
        npClip ((∑ s, X s i * R s j) / ∑ s, R s j) eps (1 - eps)) ∧
    (∀ (s : Fin n) (j : Fin c),
      Bernoulli_log_likelihood f pis X s j =
        ∑ i, (X s i * f (npClip (pis i j) eps (1 - eps)) +
          (1 - X s i) * f (1 - npClip (pis i j) eps (1 - eps)))) := by
  constructor
  · intro i j
    rfl
  · intro s j
    unfold Bernoulli_log_likelihood
    simp only
    rw [← Finset.sum_add_distrib]

/-- Concrete all-ones observation matrix with one sample and one feature. -/
def Xone : Fin 1 → Fin 1 → ℚ := fun _ _ => 1

/-- Concrete responsibility matrix with one sample fully assigned to the only class. -/
def Rone : Fin 1 → Fin 1 → ℚ := fun _ _ => 1

/-- Concrete stored parameter table with a single entry one half. -/
def pisHalf : Fin 1 → Fin 1 → ℚ := fun _ _ => 1 / 2

/-- Closed instantiation of Bernoulli_matrix_formulas on concrete one-by-one
matrices, discharging the range and positivity hypotheses. -/
theorem Bernoulli_matrix_formulas_witness :
    Bernoulli_m_step Xone Rone 0 0 =
        npClip ((∑ s, Xone s 0 * Rone s 0) / ∑ s, Rone s 0) eps (1 - eps) ∧
    Bernoulli_log_likelihood id pisHalf Xone 0 0 =
        ∑ i, (Xone 0 i * id (npClip (pisHalf i 0) eps (1 - eps)) +
          (1 - Xone 0 i) * id (1 - npClip (pisHalf i 0) eps (1 - eps))) := by
  have h := Bernoulli_matrix_formulas id Xone Rone pisHalf
    (fun s i => by constructor <;> norm_num [Xone])
    (fun j => by simp [Rone])
  exact ⟨h.1 0 0, h.2 0 0⟩

lemma npClip_le_hi (x : ℚ) : npClip x eps (1 - eps) ≤ 1 - eps := min_le_right _ _

lemma lo_le_npClip (x : ℚ) : eps ≤ npClip x eps (1 - eps) :=
  le_min (le_max_right _ _) (by norm_num [eps])

/-- C1 amended: after every m_step, the Bernoulli and Multinoulli parameter
tables have every entry inside the closed interval from 1e-15 to 1 - 1e-15,
the boundary included; the BernoulliNan m_step applies no clip, and given data
entries in the unit interval, nonnegative responsibilities and positive
per-feature observed responsibility mass, its entries lie in the closed unit
interval and are well defined. -/
theorem m_step_parameter_bounds :
    (∀ (n k c : ℕ) (X : Fin n → Fin k → ℚ) (R : Fin n → Fin c → ℚ)
        (i : Fin k) (j : Fin c),
      eps ≤ Bernoulli_m_step X R i j ∧ Bernoulli_m_step X R i j ≤ 1 - eps) ∧
    (∀ (n k c : ℕ) (X : Fin n → Fin k → ℚ) (R : Fin n → Fin c → ℚ)
        (i : Fin k) (j : Fin c),
      eps ≤ Multinoulli_m_step X R i j ∧ Multinoulli_m_step X R i j ≤ 1 - eps) ∧
    (∀ (n k c : ℕ) (X : Fin n → Fin k → Option ℚ) (R : Fin n → Fin c → ℚ)
        (i : Fin k) (j : Fin c),
      (∀ s i₀ q, X s i₀ = some q → 0 ≤ q ∧ q ≤ 1) →
      (∀ s j₀, 0 ≤ R s j₀) →
      0 < (∑ s ∈ Finset.univ.filter (fun s => isObserved X s i), R s j) →
      0 ≤ BernoulliNan_m_step X R i j ∧ BernoulliNan_m_step X R i j ≤ 1) := by
  refine ⟨fun n k c X R i j => ⟨lo_le_npClip _, npClip_le_hi _⟩,
          fun n k c X R i j => ⟨lo_le_npClip _, npClip_le_hi _⟩,
          fun n k c X R i j hX hR hD => ?_⟩
  rw [BernoulliNan_m_step_eq]
  have hnum_nonneg :
      0 ≤ ∑ s ∈ Finset.univ.filter (fun s => isObserved X s i), (X s i).getD 0 * R s j := by
    refine Finset.sum_nonneg fun s hs => ?_
    rw [Finset.mem_filter] at hs
    obtain ⟨q, hq⟩ := Option.isSome_iff_exists.mp hs.2
    rw [hq]
    exact mul_nonneg (hX s i q hq).1 (hR s j)
  have hnum_le :
      (∑ s ∈ Finset.univ.filter (fun s => isObserved X s i), (X s i).getD 0 * R s j) ≤
        ∑ s ∈ Finset.univ.filter (fun s => isObserved X s i), R s j := by
    refine Finset.sum_le_sum fun s hs => ?_
    rw [Finset.mem_filter] at hs
    obtain ⟨q, hq⟩ := Option.isSome_iff_exists.mp hs.2
    rw [hq]
    exact mul_le_of_le_one_left (hR s j) (hX s i q hq).2
  exact ⟨div_nonneg hnum_nonneg (le_of_lt hD), (div_le_one hD).mpr hnum_le⟩

/-- Concrete all-zeros observation matrix with one sample and one feature. -/
def Xzero : Fin 1 → Fin 1 → ℚ := fun _ _ => 0

/-- Concrete fully observed all-zeros data for the missing-data model. -/
def XzeroNan : Fin 1 → Fin 1 → Option ℚ := fun _ _ => some 0

/-- C1 counterexample: on the all-zeros observation matrix with the valid
responsibility matrix whose single row is the one-point simplex, the Bernoulli
m_step stores exactly 1e-15, which is not strictly above 1e-15, and the
BernoulliNan m_step, which never clips, stores exactly 0, far outside the open
interval claimed. -/
theorem m_step_parameter_bounds_counterexample :
    Bernoulli_m_step Xzero Rone 0 0 = eps ∧
    ¬ eps < Bernoulli_m_step Xzero Rone 0 0 ∧
    BernoulliNan_m_step XzeroNan Rone 0 0 = 0 ∧
    ¬ eps < BernoulliNan_m_step XzeroNan Rone 0 0 ∧
    (∀ s, ∑ j, Rone s j = 1) := by
  have h1 : Bernoulli_m_step Xzero Rone 0 0 = eps := by
    simp only [Bernoulli_m_step, Xzero, Rone, colSum, npClip, eps]
    norm_num
  have h2 : BernoulliNan_m_step XzeroNan Rone 0 0 = 0 := by
    simp [BernoulliNan_m_step, XzeroNan, Rone, nanToNum]
  refine ⟨h1, ?_, h2, ?_, fun s => by simp [Rone]⟩
  · rw [h1]
    exact lt_irrefl _
  · rw [h2]
    norm_num [eps]

/-- Closed instantiation of m_step_parameter_bounds on concrete matrices,
discharging the range, nonnegativity and observed-mass hypotheses. -/
theorem m_step_parameter_bounds_witness :
    (eps ≤ Bernoulli_m_step Xone Rone 0 0 ∧ Bernoulli_m_step Xone Rone 0 0 ≤ 1 - eps) ∧
    (eps ≤ Multinoulli_m_step Xone Rone 0 0 ∧ Multinoulli_m_step Xone Rone 0 0 ≤ 1 - eps) ∧
    (0 ≤ BernoulliNan_m_step XzeroNan Rone 0 0 ∧ BernoulliNan_m_step XzeroNan Rone 0 0 ≤ 1) := by
  obtain ⟨h1, h2, h3⟩ := m_step_parameter_bounds
  refine ⟨h1 1 1 1 Xone Rone 0 0, h2 1 1 1 Xone Rone 0 0,
          h3 1 1 1 XzeroNan Rone 0 0 ?_ ?_ ?_⟩
  · intro s i₀ q hq
    simp only [XzeroNan, Option.some.injEq] at hq
    subst hq
    norm_num
  · intro s j₀
    norm_num [Rone]
  · simp [isObserved, XzeroNan, Rone]

/-- Concrete coefficient matrix of the spec scenario: one structural feature,
three classes, first row 0, 5, -5. -/
def coefEx : Fin 1 → Fin 3 → ℚ :=
  fun _ j => if j = 0 then 0 else if j = 1 then 5 else -5

/-- C2 counterexample: on the scenario matrix with first row 0, 5, -5, the
code sorts the signed values -5 < 0 < 5 and takes the index in second
position, hence it selects class 0, whose first-row coefficient is the true
zero and not a class with nonzero first-row coefficient of smallest absolute
value; the subtraction then returns the matrix unchanged. -/
theorem identify_coef_counterexample :
    closestId coefEx = 0 ∧ coefEx 0 (closestId coefEx) = 0 ∧
    identify_coef coefEx = coefEx := by
  refine ⟨by decide, by decide, ?_⟩
  funext i j
  have h0 : closestId coefEx = 0 := by decide
  simp [identify_coef, h0, coefEx, Fin.fin_one_eq_zero i]

/-- C2 amended: identify_coef selects as reference the class in second
position of the signed-value sort of the first row, subtracts that entire
column from every column, and returns a matrix whose reference column is
exactly zero; on the scenario matrix with first row 0, 5, -5 the selected
reference class is class 0, whose first-row coefficient is the true zero, and
the matrix comes back unchanged. -/
theorem identify_coef_reference_column :
    (∀ (r m : ℕ) (coef : Fin (r + 1) → Fin (m + 2) → ℚ) (i : Fin (r + 1)),
      identify_coef coef i (closestId coef) = 0) ∧
    (∀ (r m : ℕ) (coef : Fin (r + 1) → Fin (m + 2) → ℚ) (i : Fin (r + 1)) (j : Fin (m + 2)),
      identify_coef coef i j = coef i j - coef i (closestId coef)) ∧
    closestId coefEx = 0 ∧ coefEx 0 (closestId coefEx) = 0 := by
  exact ⟨fun r m coef i => sub_self _, fun r m coef i j => rfl, by decide, by decide⟩

/-- Concrete Multinoulli state: one categorical feature with three outcomes and
two classes, the parameter table of shape three by two filled uniformly. -/
def multiEx : Multinoulli 3 2 := ⟨fun _ _ => 1 / 3, 3⟩

/-- C5 counterexample: for one feature with three outcomes and two classes the
property returns the full entry count six of the parameter table, not the
simplex-constrained free-parameter count four. -/
theorem Multinoulli_n_parameters_counterexample :
    Multinoulli_n_parameters multiEx = 6 ∧ 1 * (3 - 1) * 2 = 4 ∧ (6 : ℕ) ≠ 4 := by
  exact ⟨rfl, rfl, by decide⟩

/-- C5 amended: the Multinoulli n_parameters property returns the total entry
count of the stored table, the product of the row count K times L and the
column count C, that is K times L times C, counting every simplex entry
rather than the free parameters only. -/
theorem Multinoulli_n_parameters_counts_entries :
    ∀ (K L C : ℕ) (m : Multinoulli (K * L) C),
      Multinoulli_n_parameters m = K * L * C :=
  fun _ _ _ _ => rfl

/-- C9: under the heap semantics of the in-place numpy subtraction,
identify_coef returns the very address it was given, the array stored at that
address afterwards holds the shifted coefficients, and every other heap cell
is untouched; a caller who needs the original values must therefore pass a
copy. -/
theorem identify_coef_ref_in_place {r m : ℕ} (a : ℕ) (h : Heap r m) :
    (identify_coef_ref a h).1 = a ∧
    (identify_coef_ref a h).2 a = identify_coef (h a) ∧
    (∀ b, (identify_coef_ref a h).2 b = if b = a then identify_coef (h a) else h b) := by
  refine ⟨rfl, ?_, fun b => rfl⟩
  simp [identify_coef_ref, heapWrite]

lemma checkNestedItems_raises (keys : List String) (items : List (String × PyVal)) :
    raises (checkNestedItems keys items) =
      items.any fun kv =>
        match kv.2 with
        | .dict ie =>
          !(dictHasKey ie "model" && dictHasKey ie "n_features") ||
            !(pyInStrList (dictGet ie "model") keys)
        | _ => true := by
  induction items with
  | nil => rfl
  | cons hd rest ih =>
    obtain ⟨key, item⟩ := hd
    cases item with
    | str s => rfl
    | int z => rfl
    | other => rfl
    | dict ie =>
      rw [List.any_cons]
      by_cases hkeys : (dictHasKey ie "model" && dictHasKey ie "n_features") = true
      · by_cases hmodel : pyInStrList (dictGet ie "model") keys = true
        · have hok : check_in keys (dictGet ie "model") = Except.ok () := by
            simp [check_in, hmodel]
          have hl : checkNestedItems keys ((key, PyVal.dict ie) :: rest) =
              checkNestedItems keys rest := by
            simp [checkNestedItems, hkeys, hok, Bind.bind, Except.bind]
          rw [hl, ih]
          simp [hkeys, hmodel]
        · rw [Bool.not_eq_true] at hmodel
          have herr : check_in keys (dictGet ie "model") =
              Except.error "value not recognized. Choose from choices" := by
            simp [check_in, hmodel]
          have hl : checkNestedItems keys ((key, PyVal.dict ie) :: rest) =
              Except.error "value not recognized. Choose from choices" := by
            simp [checkNestedItems, hkeys, herr, Bind.bind, Except.bind]
          rw [hl]
          simp [raises, hkeys, hmodel]
      · rw [Bool.not_eq_true] at hkeys
        have hl : checkNestedItems keys ((key, PyVal.dict ie) :: rest) =
            Except.error
              "Nested dict descriptors should include at least a model key and an n_features key." := by
          simp [checkNestedItems, hkeys]
        rw [hl]
        simp [raises, hkeys]

/-- C7 amended: check_emission_param raises ValueError, before any data pass,
exactly when the descriptor is malformed in the amended sense: it is neither a
string nor a dict, or it is a string not among the valid emission names, or it
is a dict holding an item that is not itself a dict, or whose dict lacks a
model key or an n_features key, or whose model value is not among the valid
emission names; on every other descriptor it returns without raising. -/
theorem check_emission_param_exact (descriptor : PyVal) (keys : List String) :
    raises (check_emission_param descriptor keys) = amendedMalformed descriptor keys := by
  cases descriptor with
  | str s =>
    by_cases h : s ∈ keys
    · simp [check_emission_param, check_in, pyInStrList, raises, amendedMalformed, h]
    · simp [check_emission_param, check_in, pyInStrList, raises, amendedMalformed, h]
  | int z => rfl
  | other => rfl
  | dict entries =>
    simpa [check_emission_param, amendedMalformed] using
      checkNestedItems_raises keys entries

/-- Concrete nested descriptor whose single item is a dict holding both a
model key and an n_features key, with a model name outside the valid list. -/
def badDescriptor : PyVal :=
  .dict [("block", .dict [("model", .str "bogus"), ("n_features", .int 1)])]

/-- Concrete list of valid emission names. -/
def keysEx : List String := ["bernoulli"]

/-- C7 counterexample: a dict descriptor whose item is a well-formed dict with
both required keys is not malformed under the claim wording, yet the code
raises ValueError on it, because the model value is not a valid emission
name; so the claimed exact characterization of the raising behaviour fails. -/
theorem check_emission_param_counterexample :
    claimMalformed badDescriptor keysEx = false ∧
    raises (check_emission_param badDescriptor keysEx) = true := by
  constructor <;> rfl

end LCA
